import Mathlib

/-!
Verification of the festival-emoji analytics pipeline (`src/app.py`).

The pipeline has two parts:
* `process_data` (the Normalizer): reads an uploaded table and fills in the
  five canonical columns (`Tweet_ID`, `Author_ID`, `Date`, `Tweet_Text`,
  `Emoji`), re-parsing `Date` when present;
* the Aggregator: filters the table by festival/sentiment and derives the
  chart inputs (mode of a column, value-count rankings, the positive-rate
  gauge, the one-hot emoji indicator table, ...).

Tables are embedded as a schema (which named columns are present) plus a
list of rows; a row field is meaningful only when the schema flag for its
column is set.  Randomness (`np.random`) is embedded as an explicit stream
of draws, one independent draw per row per synthesized column, with
`np.random.randint(lo, hi)` modelled as `lo + draw % (hi - lo)` (the upper
bound is exclusive, as in numpy).  Time is measured in whole hours, so
`timedelta(days=d, hours=h)` is `24*d + h` and the 30-day window is 720
hours.
-/

/-! ### Generic list helpers (embedding of the pandas primitives) -/

/-- Fuel-driven recursion computing the distinct values of a list in
first-encounter order; the fuel only makes the recursion structural and is
always called with at least the length of the list. -/
def uniqueInOrderFuel : Nat → List String → List String
  | 0, _ => []
  | _ + 1, [] => []
  | n + 1, a :: l => a :: uniqueInOrderFuel n (l.filter (fun b => b ≠ a))

/-- The distinct values of a list in first-encounter order.  This is the
order in which a pandas hash-table based operation (`value_counts`,
`unique`) enumerates the distinct values of a column. -/
def uniqueInOrder (l : List String) : List String :=
  uniqueInOrderFuel l.length l

theorem uniqueInOrderFuel_congr : ∀ (n m : Nat) (l : List String),
    l.length ≤ n → l.length ≤ m →
    uniqueInOrderFuel n l = uniqueInOrderFuel m l := by
  intro n
  induction n with
  | zero =>
    intro m l hn _
    have : l = [] := List.length_eq_zero.mp (Nat.le_zero.mp hn)
    subst this
    cases m <;> rfl
  | succ n ih =>
    intro m l hn hm
    match l, m with
    | [], 0 => rfl
    | [], m + 1 => rfl
    | a :: l2, 0 => simp at hm
    | a :: l2, m + 1 =>
      rw [uniqueInOrderFuel, uniqueInOrderFuel]
      congr 1
      apply ih
      · have := List.length_filter_le (fun b => decide (b ≠ a)) l2
        simp at hn
        omega
      · have := List.length_filter_le (fun b => decide (b ≠ a)) l2
        simp at hm
        omega

theorem uniqueInOrder_nil : uniqueInOrder [] = [] := rfl

theorem uniqueInOrder_cons (a : String) (l : List String) :
    uniqueInOrder (a :: l)
      = a :: uniqueInOrder (l.filter (fun b => b ≠ a)) := by
  rw [uniqueInOrder, uniqueInOrder, List.length_cons, uniqueInOrderFuel]
  congr 1
  exact uniqueInOrderFuel_congr _ _ _ (List.length_filter_le _ _) le_rfl

/-- The induction principle matching the recursion of `uniqueInOrder`. -/
theorem uniqueInOrder_induction (P : List String → Prop) (h0 : P [])
    (h1 : ∀ a l, P (l.filter (fun b => b ≠ a)) → P (a :: l)) :
    ∀ l, P l := by
  have key : ∀ (n : Nat) (l : List String), l.length ≤ n → P l := by
    intro n
    induction n with
    | zero =>
      intro l hl
      rw [List.length_eq_zero.mp (Nat.le_zero.mp hl)]
      exact h0
    | succ n ih =>
      intro l hl
      match l with
      | [] => exact h0
      | a :: l2 =>
        apply h1
        apply ih
        have := List.length_filter_le (fun b => decide (b ≠ a)) l2
        simp at hl
        omega
  intro l
  exact key l.length l le_rfl

/-- Maximum of a list of naturals (0 on the empty list). -/
def listMax (l : List Nat) : Nat := l.foldr max 0

/-- The count of the most frequent value of `l`. -/
def maxCount (l : List String) : Nat :=
  listMax ((uniqueInOrder l).map (fun v => l.count v))

/-- Lexicographic comparison of character lists by code point. -/
def charListLe : List Char → List Char → Bool
  | [], _ => true
  | _ :: _, [] => false
  | a :: as, b :: bs => if a < b then true else if b < a then false else charListLe as bs

/-- Code-point lexicographic `≤` on strings: the order Python (and hence
pandas sorting) uses to compare the string values of a column. -/
def strLe (s t : String) : Bool := charListLe s.data t.data

/-- Insert a string into a list, before the first element that is `≥` it:
one step of a stable ascending insertion sort. -/
def insertStr (s : String) : List String → List String
  | [] => [s]
  | t :: l => if strLe s t then s :: t :: l else t :: insertStr s l

/-- Ascending sort of a list of strings. -/
def sortStr (l : List String) : List String := l.foldr insertStr []

/-- `pandas.Series.mode`: the values attaining the maximal count, returned
in ascending sorted order (pandas documents that `mode` always returns its
result sorted). -/
def seriesMode (l : List String) : List String :=
  sortStr ((uniqueInOrder l).filter (fun v => l.count v == maxCount l))

/-- Insert a `(value, count)` pair into a list, after every pair with a
strictly larger count: one step of a stable descending-by-count insertion
sort. -/
def insertByCount (p : String × Nat) :
    List (String × Nat) → List (String × Nat)
  | [] => [p]
  | q :: l => if p.2 < q.2 then q :: insertByCount p l else p :: q :: l

/-- Stable descending-by-count sort of `(value, count)` pairs: the order of
`pandas.Series.value_counts` (counts descending, ties in first-encounter
order). -/
def sortDesc (l : List (String × Nat)) : List (String × Nat) :=
  l.foldr insertByCount []

/-- The `(value, count)` pairs of a column in first-encounter order. -/
def valueCounts (l : List String) : List (String × Nat) :=
  (uniqueInOrder l).map (fun v => (v, l.count v))

/-! ### Data model -/

/-- A cell of the `Date` column: either an already parsed date-time
(measured in whole hours) or an unparsed raw string. -/
inductive DateCell where
  | dt (t : Int)
  | raw (s : String)
deriving Repr, DecidableEq

/-- Elementwise model of `pd.to_datetime`: an already parsed date-time is
returned unchanged; a raw string either parses to a date-time or fails
(modelled here by reading the string as a number of hours). -/
def parseDateCell : DateCell → Option Int
  | .dt t => some t
  | .raw s => (s.toNat?).map Int.ofNat

/-- One row of a table.  A field carries meaning only when the table's
schema records its column as present. -/
structure Row where
  tweetID : Nat
  authorID : String
  date : DateCell
  tweet : String
  tweetText : String
  emoji : String
  festival : String
  sentiment : String
  emotion : String
deriving Repr, DecidableEq

instance : Inhabited Row := ⟨⟨0, "", .dt 0, "", "", "", "", "", ""⟩⟩

/-- Which named columns the table carries (`'X' in df.columns`). -/
structure Schema where
  hasTweetID : Bool
  hasAuthorID : Bool
  hasDate : Bool
  hasTweet : Bool
  hasTweetText : Bool
  hasEmoji : Bool
  hasFestival : Bool
  hasSentiment : Bool
  hasEmotion : Bool
deriving Repr, DecidableEq

/-- A data frame: a schema and the rows, in order. -/
structure Table where
  schema : Schema
  rows : List Row
deriving Repr, DecidableEq

/-- `pd.DataFrame()`: the empty frame returned when loading fails. -/
def emptyTable : Table :=
  ⟨⟨false, false, false, false, false, false, false, false, false⟩, []⟩

/-- An explicit stream of random draws, one independent draw per row for
each synthesized column (`np.random` with the ambient global state made
explicit). -/
structure Rng where
  idDraw : Nat → Nat
  authorDraw : Nat → Nat
  dayDraw : Nat → Nat
  hourDraw : Nat → Nat

/-- `np.random.randint(lo, hi)` applied to one draw of the stream: a value
in `[lo, hi)` — numpy excludes the upper bound. -/
def npRandint (lo hi : Nat) (x : Nat) : Nat := lo + x % (hi - lo)

/-- The fixed author label set of `process_data`. -/
def authors : List String :=
  ["Ananya_Rao", "Rohan_M", "Priya_Singh", "Arjun_K",
   "Vikram_P", "Meera_N", "Suresh_Eats"]

/-- `np.random.choice(l)` applied to one draw of the stream. -/
def npChoice (l : List String) (x : Nat) : String := l.getD (x % l.length) ""

/-! ### The Normalizer (`process_data`, src/app.py lines 50-94) -/

/-- The per-row effect of `process_data` on row `i`: fill `Tweet_ID`,
`Author_ID`, `Date`, `Tweet_Text`, `Emoji` when the schema lacks them, and
re-parse `Date` when present (the table-level guard `datesParseable`
ensures the parse succeeds whenever this is reached). -/
def normRow (sch : Schema) (g : Rng) (now : Int) (i : Nat) (r : Row) : Row :=
  let r1 := if sch.hasTweetID then r
            else { r with tweetID := npRandint 1000000 9999999 (g.idDraw i) }
  let r2 := if sch.hasAuthorID then r1
            else { r1 with authorID := npChoice authors (g.authorDraw i) }
  let r3 :=
    if sch.hasDate then { r2 with date := .dt ((parseDateCell r2.date).getD 0) }
    else { r2 with date := .dt (now - 720 +
             24 * (npRandint 0 30 (g.dayDraw i) : Int) +
             (npRandint 0 23 (g.hourDraw i) : Int)) }
  let r4 :=
    if sch.hasTweet && !sch.hasTweetText then { r3 with tweetText := r3.tweet }
    else if !sch.hasTweetText then { r3 with tweetText := "No text available" }
    else r3
  if sch.hasEmoji then r4 else { r4 with emoji := "🙂" }

/-- Map a function over a list together with the index of each element,
starting from `i`. -/
def mapIdxFrom (f : Nat → Row → Row) : Nat → List Row → List Row
  | _, [] => []
  | i, r :: rs => f i r :: mapIdxFrom f (i + 1) rs

/-- Whether `pd.to_datetime(df['Date'])` succeeds: vacuously when the
column is absent, otherwise every cell must parse. -/
def datesParseable (sch : Schema) (rows : List Row) : Bool :=
  !sch.hasDate || rows.all (fun r => (parseDateCell r.date).isSome)

/-- The schema after normalization: the five canonical columns are
guaranteed present, every other column keeps its status. -/
def normSchema (sch : Schema) : Schema :=
  { sch with hasTweetID := true, hasAuthorID := true, hasDate := true,
             hasTweetText := true, hasEmoji := true }

/-- `process_data` up to its `try`: `none` models the exception path
(unreadable file — the `none` input — or an unparseable `Date` column).
The `st.error` branch of the source catches that exception and the caller
then sees `pd.DataFrame()`, cf. `loadedTable`. -/
def process_data (input : Option Table) (g : Rng) (now : Int) : Option Table :=
  match input with
  | none => none
  | some T =>
    if datesParseable T.schema T.rows then
      some ⟨normSchema T.schema, mapIdxFrom (normRow T.schema g now) 0 T.rows⟩
    else none

/-- What the caller of `process_data` receives: the normalized table, or
the empty frame when loading failed. -/
def loadedTable (input : Option Table) (g : Rng) (now : Int) : Table :=
  (process_data input g now).getD emptyTable

/-- The `if not df.empty` guard: derivations run only on a non-empty
loaded table. -/
def derivationsRun (T : Table) : Bool := !T.rows.isEmpty

/-! ### The Aggregator (src/app.py lines 130-593) -/

/-- The `Emoji` column of a table. -/
def colEmoji (T : Table) : List String := T.rows.map Row.emoji

/-- The `Emotion` column of a table. -/
def colEmotion (T : Table) : List String := T.rows.map Row.emotion

/-- The filter application (lines 130-134): restrict by festival and then
by sentiment, each only when the selector is not `"All"` and the column is
present. -/
def df_filt (T : Table) (fest sent : String) : Table :=
  let T1 := if fest != "All" && T.schema.hasFestival
            then { T with rows := T.rows.filter (fun r => r.festival == fest) }
            else T
  if sent != "All" && T1.schema.hasSentiment
  then { T1 with rows := T1.rows.filter (fun r => r.sentiment == sent) }
  else T1

/-- `len(df_filt)`, the Total Tweets metric. -/
def total_count (T : Table) : Nat := T.rows.length

/-- The Top Emotion metric (lines 149-152): `df_filt['Emotion'].mode()[0]`
when the column is present and the mode is non-empty, else `"N/A"`. -/
def top_emotion (T : Table) : String :=
  if T.schema.hasEmotion then
    match seriesMode (colEmotion T) with
    | [] => "N/A"
    | m :: _ => m
  else "N/A"

/-- The Top Emoji metric (lines 155-158), same shape as `top_emotion`. -/
def top_emoji (T : Table) : String :=
  if T.schema.hasEmoji then
    match seriesMode (colEmoji T) with
    | [] => "N/A"
    | m :: _ => m
  else "N/A"

/-- The emoji frequency ranking (lines 168-173):
`df_filt['Emoji'].value_counts().nlargest(top_n)` — the stable descending
sort of the per-value counts, truncated to `top_n` entries. -/
def emoji_counts (T : Table) (n : Nat) : List (String × Nat) :=
  (sortDesc (valueCounts (colEmoji T))).take n

/-- `(df_filt['Sentiment'] == 'Positive').sum()`. -/
def positive_count (T : Table) : Nat :=
  T.rows.countP (fun r => r.sentiment == "Positive")

/-- The positive-rate gauge (lines 428-431): computed only under the guard
`'Sentiment' in df_filt.columns and len(df_filt) > 0`; `none` means the
gauge is skipped and no value is ever produced. -/
def positive_rate? (T : Table) : Option ℚ :=
  if T.schema.hasSentiment && decide (0 < T.rows.length) then
    some (((positive_count T : ℚ) / (total_count T : ℚ)) * 100)
  else none

/-- The top-`n` emoji labels used by the co-occurrence heatmap (lines
561-567): `value_counts().nlargest(top_n).index`. -/
def top_emojis (T : Table) (n : Nat) : List String :=
  (emoji_counts T n).map Prod.fst

/-- One cell of the one-hot indicator table (line 573):
`(df_filt['Emoji'] == e).astype(int)` at one row. -/
def indicatorCell (r : Row) (e : String) : Nat := if r.emoji == e then 1 else 0

/-- The one-hot indicator table `mat_df` (lines 571-573): one row per
table row, one column per top-`n` emoji. -/
def mat_df (T : Table) (n : Nat) : List (List Nat) :=
  T.rows.map (fun r => (top_emojis T n).map (indicatorCell r))

/-! ### Lemmas about the list helpers -/

theorem mem_uniqueInOrder {v : String} :
    ∀ {l : List String}, v ∈ uniqueInOrder l ↔ v ∈ l := by
  intro l
  induction l using uniqueInOrder_induction with
  | h0 => simp [uniqueInOrder_nil]
  | h1 a l ih =>
    rw [uniqueInOrder_cons]
    simp only [List.mem_cons, ih, List.mem_filter]
    constructor
    · rintro (rfl | ⟨hv, _⟩)
      · exact Or.inl rfl
      · exact Or.inr hv
    · rintro (rfl | hv)
      · exact Or.inl rfl
      · by_cases hva : v = a
        · exact Or.inl hva
        · exact Or.inr ⟨hv, by simpa using hva⟩

theorem nodup_uniqueInOrder :
    ∀ (l : List String), (uniqueInOrder l).Nodup := by
  intro l
  induction l using uniqueInOrder_induction with
  | h0 => simp [uniqueInOrder_nil]
  | h1 a l ih =>
    rw [uniqueInOrder_cons]
    refine List.nodup_cons.mpr ⟨?_, ih⟩
    intro hmem
    have := mem_uniqueInOrder.mp hmem
    simp at this

theorem le_listMax {a : Nat} : ∀ {l : List Nat}, a ∈ l → a ≤ listMax l := by
  intro l
  induction l with
  | nil => simp
  | cons b l ih =>
    intro h
    rcases List.mem_cons.mp h with rfl | h
    · exact Nat.le_max_left _ _
    · exact le_trans (ih h) (Nat.le_max_right _ _)

theorem listMax_mem : ∀ {l : List Nat}, l ≠ [] → listMax l ∈ l := by
  intro l
  induction l with
  | nil => simp
  | cons b l ih =>
    intro _
    have hmax : listMax (b :: l) = max b (listMax l) := rfl
    match l, ih with
    | [], _ => simp [listMax]
    | c :: l2, ih =>
      rcases Nat.le_total (listMax (c :: l2)) b with h | h
      · rw [hmax, Nat.max_eq_left h]
        exact List.mem_cons_self _ _
      · rw [hmax, Nat.max_eq_right h]
        exact List.mem_cons_of_mem _ (ih (by simp))

theorem count_le_maxCount {l : List String} {v : String} (h : v ∈ l) :
    l.count v ≤ maxCount l := by
  apply le_listMax
  exact List.mem_map_of_mem _ (mem_uniqueInOrder.mpr h)

theorem maxCount_attained {l : List String} (h : l ≠ []) :
    ∃ v ∈ uniqueInOrder l, l.count v = maxCount l := by
  have hu : uniqueInOrder l ≠ [] := by
    rcases List.exists_mem_of_ne_nil l h with ⟨a, ha⟩
    have hmem : a ∈ uniqueInOrder l := mem_uniqueInOrder.mpr ha
    intro hnil
    rw [hnil] at hmem
    simp at hmem
  have hmem : listMax ((uniqueInOrder l).map (fun v => l.count v)) ∈
      (uniqueInOrder l).map (fun v => l.count v) := by
    apply listMax_mem
    simpa using hu
  rcases List.mem_map.mp hmem with ⟨v, hv, hveq⟩
  exact ⟨v, hv, hveq⟩

theorem charListLe_cons_iff {a b : Char} {as bs : List Char} :
    charListLe (a :: as) (b :: bs) = true ↔
      a < b ∨ (a = b ∧ charListLe as bs = true) := by
  rw [charListLe]
  by_cases h1 : a < b
  · simp [h1]
  · by_cases h2 : b < a
    · have hne : ¬ a = b := by
        intro h
        subst h
        exact lt_irrefl _ h2
      simp [h1, h2, hne]
    · have heq : a = b := le_antisymm (le_of_not_lt h2) (le_of_not_lt h1)
      simp [h1, h2, heq]

theorem charListLe_refl : ∀ (l : List Char), charListLe l l = true := by
  intro l
  induction l with
  | nil => rfl
  | cons a l ih => exact charListLe_cons_iff.mpr (Or.inr ⟨rfl, ih⟩)

theorem charListLe_total : ∀ (l1 l2 : List Char),
    charListLe l1 l2 = true ∨ charListLe l2 l1 = true := by
  intro l1
  induction l1 with
  | nil =>
    intro l2
    left
    cases l2 <;> rfl
  | cons a as ih =>
    intro l2
    cases l2 with
    | nil => right; rfl
    | cons b bs =>
      rcases lt_trichotomy a b with h | h | h
      · exact Or.inl (charListLe_cons_iff.mpr (Or.inl h))
      · subst h
        rcases ih bs with hx | hx
        · exact Or.inl (charListLe_cons_iff.mpr (Or.inr ⟨rfl, hx⟩))
        · exact Or.inr (charListLe_cons_iff.mpr (Or.inr ⟨rfl, hx⟩))
      · exact Or.inr (charListLe_cons_iff.mpr (Or.inl h))

theorem charListLe_trans : ∀ (l1 l2 l3 : List Char),
    charListLe l1 l2 = true → charListLe l2 l3 = true →
    charListLe l1 l3 = true := by
  intro l1
  induction l1 with
  | nil =>
    intro l2 l3 _ _
    cases l3 <;> rfl
  | cons a as ih =>
    intro l2 l3 h12 h23
    cases l2 with
    | nil => simp [charListLe] at h12
    | cons b bs =>
      cases l3 with
      | nil => simp [charListLe] at h23
      | cons c cs =>
        rcases charListLe_cons_iff.mp h12 with hab | ⟨hab, hrec1⟩ <;>
          rcases charListLe_cons_iff.mp h23 with hbc | ⟨hbc, hrec2⟩
        · exact charListLe_cons_iff.mpr (Or.inl (lt_trans hab hbc))
        · exact charListLe_cons_iff.mpr (Or.inl (hbc ▸ hab))
        · exact charListLe_cons_iff.mpr (Or.inl (hab ▸ hbc))
        · exact charListLe_cons_iff.mpr
            (Or.inr ⟨hab.trans hbc, ih bs cs hrec1 hrec2⟩)

theorem strLe_refl (s : String) : strLe s s = true := charListLe_refl _

theorem strLe_total (s t : String) :
    strLe s t = true ∨ strLe t s = true := charListLe_total _ _

theorem strLe_trans {s t u : String} (h1 : strLe s t = true)
    (h2 : strLe t u = true) : strLe s u = true :=
  charListLe_trans _ _ _ h1 h2

theorem insertStr_perm (s : String) :
    ∀ (l : List String), (insertStr s l).Perm (s :: l) := by
  intro l
  induction l with
  | nil => simp [insertStr]
  | cons t l ih =>
    rw [insertStr]
    by_cases h : strLe s t = true
    · simp [h]
    · simp only [h, Bool.false_eq_true, if_false]
      exact List.Perm.trans (ih.cons t) (List.Perm.swap _ _ _)

theorem sortStr_perm : ∀ (l : List String), (sortStr l).Perm l := by
  intro l
  induction l with
  | nil => simp [sortStr]
  | cons t l ih =>
    have heq : sortStr (t :: l) = insertStr t (sortStr l) := rfl
    rw [heq]
    exact List.Perm.trans (insertStr_perm _ _) (ih.cons t)

theorem sortStr_sorted : ∀ (l : List String),
    (sortStr l).Pairwise (fun a b => strLe a b = true) := by
  have hins : ∀ (s : String) (l : List String),
      l.Pairwise (fun a b => strLe a b = true) →
      (insertStr s l).Pairwise (fun a b => strLe a b = true) := by
    intro s l
    induction l with
    | nil => intro _; simp [insertStr]
    | cons t l ih =>
      intro hp
      rcases List.pairwise_cons.mp hp with ⟨ht, hl⟩
      rw [insertStr]
      by_cases h : strLe s t = true
      · simp only [h, if_true]
        refine List.pairwise_cons.mpr ⟨?_, hp⟩
        intro b hb
        rcases List.mem_cons.mp hb with rfl | hb
        · exact h
        · exact strLe_trans h (ht b hb)
      · simp only [h, Bool.false_eq_true, if_false]
        refine List.pairwise_cons.mpr ⟨?_, ih hl⟩
        intro b hb
        have hb2 : b ∈ s :: l := (insertStr_perm s l).mem_iff.mp hb
        rcases List.mem_cons.mp hb2 with hbs | hb2
        · subst hbs
          rcases strLe_total b t with hx | hx
          · exact absurd hx h
          · exact hx
        · exact ht b hb2
  intro l
  induction l with
  | nil => simp [sortStr]
  | cons t l ih => exact hins t (sortStr l) ih

theorem seriesMode_perm (l : List String) :
    (seriesMode l).Perm
      ((uniqueInOrder l).filter (fun v => l.count v == maxCount l)) :=
  sortStr_perm _

theorem mem_seriesMode {l : List String} {m : String} :
    m ∈ seriesMode l ↔ m ∈ l ∧ l.count m = maxCount l := by
  rw [(seriesMode_perm l).mem_iff, List.mem_filter]
  simp [mem_uniqueInOrder]

theorem seriesMode_ne_nil {l : List String} (h : l ≠ []) :
    seriesMode l ≠ [] := by
  rcases maxCount_attained h with ⟨v, hv, hveq⟩
  intro hnil
  have hm : v ∈ seriesMode l :=
    mem_seriesMode.mpr ⟨mem_uniqueInOrder.mp hv, hveq⟩
  rw [hnil] at hm
  simp at hm

theorem seriesMode_head_min {l : List String} {m : String} {rest : List String}
    (h : seriesMode l = m :: rest) :
    m ∈ l ∧ l.count m = maxCount l ∧
      ∀ v ∈ l, l.count v = maxCount l → strLe m v = true := by
  have hmem : m ∈ seriesMode l := by rw [h]; exact List.mem_cons_self _ _
  rcases mem_seriesMode.mp hmem with ⟨hml, hmc⟩
  refine ⟨hml, hmc, ?_⟩
  intro v hv hvc
  have hvmem : v ∈ seriesMode l := mem_seriesMode.mpr ⟨hv, hvc⟩
  rw [h] at hvmem
  rcases List.mem_cons.mp hvmem with rfl | hvmem
  · exact strLe_refl _
  · have hp : (seriesMode l).Pairwise (fun a b => strLe a b = true) :=
      sortStr_sorted _
    rw [h] at hp
    exact (List.pairwise_cons.mp hp).1 v hvmem

theorem insertByCount_perm (p : String × Nat) :
    ∀ (l : List (String × Nat)), (insertByCount p l).Perm (p :: l) := by
  intro l
  induction l with
  | nil => simp [insertByCount]
  | cons q l ih =>
    rw [insertByCount]
    by_cases h : p.2 < q.2
    · simp only [if_pos h]
      exact List.Perm.trans (ih.cons q) (List.Perm.swap _ _ _)
    · simp [h]

theorem sortDesc_perm : ∀ (l : List (String × Nat)), (sortDesc l).Perm l := by
  intro l
  induction l with
  | nil => simp [sortDesc]
  | cons q l ih =>
    have heq : sortDesc (q :: l) = insertByCount q (sortDesc l) := rfl
    rw [heq]
    exact List.Perm.trans (insertByCount_perm _ _) (ih.cons q)

theorem sortDesc_sorted : ∀ (l : List (String × Nat)),
    (sortDesc l).Pairwise (fun p q => q.2 ≤ p.2) := by
  have hins : ∀ (p : String × Nat) (l : List (String × Nat)),
      l.Pairwise (fun a b => b.2 ≤ a.2) →
      (insertByCount p l).Pairwise (fun a b => b.2 ≤ a.2) := by
    intro p l
    induction l with
    | nil => intro _; simp [insertByCount]
    | cons q l ih =>
      intro hp
      rcases List.pairwise_cons.mp hp with ⟨hq, hl⟩
      rw [insertByCount]
      by_cases h : p.2 < q.2
      · simp only [if_pos h]
        refine List.pairwise_cons.mpr ⟨?_, ih hl⟩
        intro b hb
        have hb2 : b ∈ p :: l := (insertByCount_perm p l).mem_iff.mp hb
        rcases List.mem_cons.mp hb2 with rfl | hb2
        · exact Nat.le_of_lt h
        · exact hq b hb2
      · simp only [if_neg h]
        refine List.pairwise_cons.mpr ⟨?_, hp⟩
        intro b hb
        rcases List.mem_cons.mp hb with rfl | hb
        · exact Nat.le_of_not_lt h
        · exact le_trans (hq b hb) (Nat.le_of_not_lt h)
  intro l
  induction l with
  | nil => simp [sortDesc]
  | cons q l ih => exact hins q (sortDesc l) ih

theorem filter_insertByCount (p : String × Nat) (c : Nat) :
    ∀ (l : List (String × Nat)),
      (insertByCount p l).filter (fun q => q.2 == c) =
        if p.2 = c then p :: l.filter (fun q => q.2 == c)
        else l.filter (fun q => q.2 == c) := by
  intro l
  induction l with
  | nil =>
    by_cases hp : p.2 = c
    · simp [insertByCount, List.filter_cons, hp]
    · simp [insertByCount, List.filter_cons, hp]
  | cons q l ih =>
    rw [insertByCount]
    by_cases h : p.2 < q.2
    · rw [if_pos h, List.filter_cons, ih]
      by_cases hp : p.2 = c
      · have hqc : ¬ q.2 = c := by omega
        simp [hp, hqc, List.filter_cons]
      · by_cases hq : q.2 = c
        · simp [hp, hq, List.filter_cons]
        · simp [hp, hq, List.filter_cons]
    · rw [if_neg h, List.filter_cons, List.filter_cons]
      by_cases hp : p.2 = c
      · simp [hp]
      · simp [hp]

theorem filter_sortDesc (c : Nat) : ∀ (l : List (String × Nat)),
    (sortDesc l).filter (fun q => q.2 == c) = l.filter (fun q => q.2 == c) := by
  intro l
  induction l with
  | nil => simp [sortDesc]
  | cons q l ih =>
    have heq : sortDesc (q :: l) = insertByCount q (sortDesc l) := rfl
    rw [heq, filter_insertByCount, List.filter_cons]
    by_cases h : q.2 = c
    · simp [h, ih]
    · simp [h, ih]

theorem sublist_sum_le {l1 l2 : List Nat} (h : l1.Sublist l2) :
    l1.sum ≤ l2.sum := by
  induction h with
  | slnil => exact le_refl _
  | cons a _ ih => simpa using le_trans ih (Nat.le_add_left _ _)
  | cons₂ a _ ih => simpa using ih

theorem count_add_filter_ne (a : String) : ∀ (l : List String),
    l.count a + (l.filter (fun b => b ≠ a)).length = l.length := by
  intro l
  induction l with
  | nil => simp
  | cons b l ih =>
    simp only [ne_eq, decide_not] at ih ⊢
    by_cases h : b = a
    · subst h
      simp only [List.count_cons, List.filter_cons]
      simp
      omega
    · simp only [List.count_cons, List.filter_cons]
      simp [h]
      omega

theorem count_filter_ne {a v : String} (hvne : v ≠ a) (l : List String) :
    (l.filter (fun b => b ≠ a)).count v = l.count v := by
  rw [List.count_filter]
  simp [hvne]

theorem sum_counts_uniqueInOrder : ∀ (l : List String),
    ((uniqueInOrder l).map (fun v => l.count v)).sum = l.length := by
  intro l
  induction l using uniqueInOrder_induction with
  | h0 => simp [uniqueInOrder_nil]
  | h1 a l ih =>
    rw [uniqueInOrder_cons]
    rw [List.map_cons, List.sum_cons]
    have hmap : (uniqueInOrder (l.filter (fun b => b ≠ a))).map
          (fun v => (a :: l).count v)
        = (uniqueInOrder (l.filter (fun b => b ≠ a))).map
          (fun v => (l.filter (fun b => b ≠ a)).count v) := by
      apply List.map_congr_left
      intro v hv
      have hvmem := mem_uniqueInOrder.mp hv
      have hvne : v ≠ a := by
        rcases List.mem_filter.mp hvmem with ⟨_, hne⟩
        simpa using hne
      rw [List.count_cons, count_filter_ne hvne]
      have hba : (a == v) = false := by simpa using Ne.symm hvne
      simp [hvne, Ne.symm hvne]
    rw [hmap, ih]
    have hkey := count_add_filter_ne a l
    have hcount : (a :: l).count a = l.count a + 1 := by
      simp [List.count_cons]
    rw [hcount, List.length_cons]
    omega

theorem sum_valueCounts (l : List String) :
    ((valueCounts l).map Prod.snd).sum = l.length := by
  rw [valueCounts, List.map_map]
  exact sum_counts_uniqueInOrder l

theorem fst_valueCounts (l : List String) :
    (valueCounts l).map Prod.fst = uniqueInOrder l := by
  rw [valueCounts, List.map_map]
  show (uniqueInOrder l).map (fun v => v) = uniqueInOrder l
  exact List.map_id _

theorem nodup_fst_valueCounts (l : List String) :
    ((valueCounts l).map Prod.fst).Nodup := by
  rw [fst_valueCounts]
  exact nodup_uniqueInOrder l

theorem sum_map_indicator (v : String) :
    ∀ (L : List String), L.Nodup →
      (L.map (fun e => if v == e then 1 else 0)).sum
        = if v ∈ L then 1 else 0 := by
  intro L
  induction L with
  | nil => simp
  | cons e L ih =>
    intro hnd
    rcases List.nodup_cons.mp hnd with ⟨he, hL⟩
    rw [List.map_cons, List.sum_cons, ih hL]
    by_cases hv : v = e
    · subst hv
      have hnm : v ∉ L := he
      simp [hnm]
    · have hbe : (v == e) = false := by simpa using hv
      rw [hbe]
      by_cases hm : v ∈ L
      · simp [hm, List.mem_cons, hv]
      · simp [hm, List.mem_cons, hv]

/-! ### Frame lemmas for the Normalizer -/

theorem normRow_festival (sch : Schema) (g : Rng) (now : Int) (i : Nat)
    (r : Row) : (normRow sch g now i r).festival = r.festival := by
  simp only [normRow, apply_ite Row.festival, ite_self]

theorem normRow_sentiment (sch : Schema) (g : Rng) (now : Int) (i : Nat)
    (r : Row) : (normRow sch g now i r).sentiment = r.sentiment := by
  simp only [normRow, apply_ite Row.sentiment, ite_self]

theorem normRow_emotion (sch : Schema) (g : Rng) (now : Int) (i : Nat)
    (r : Row) : (normRow sch g now i r).emotion = r.emotion := by
  simp only [normRow, apply_ite Row.emotion, ite_self]

theorem normRow_tweet (sch : Schema) (g : Rng) (now : Int) (i : Nat)
    (r : Row) : (normRow sch g now i r).tweet = r.tweet := by
  simp only [normRow, apply_ite Row.tweet, ite_self]

theorem normRow_tweetID_of_has (sch : Schema) (g : Rng) (now : Int) (i : Nat)
    (r : Row) (h : sch.hasTweetID = true) :
    (normRow sch g now i r).tweetID = r.tweetID := by
  simp only [normRow, h, if_true, apply_ite Row.tweetID, ite_self]

theorem normRow_tweetID_of_not_has (sch : Schema) (g : Rng) (now : Int)
    (i : Nat) (r : Row) (h : sch.hasTweetID = false) :
    (normRow sch g now i r).tweetID = npRandint 1000000 9999999 (g.idDraw i) := by
  simp only [normRow, h, apply_ite Row.tweetID, ite_self]
  simp

theorem normRow_authorID_of_has (sch : Schema) (g : Rng) (now : Int) (i : Nat)
    (r : Row) (h : sch.hasAuthorID = true) :
    (normRow sch g now i r).authorID = r.authorID := by
  simp only [normRow, h, if_true, apply_ite Row.authorID, ite_self]

theorem normRow_tweetText_of_has (sch : Schema) (g : Rng) (now : Int) (i : Nat)
    (r : Row) (h : sch.hasTweetText = true) :
    (normRow sch g now i r).tweetText = r.tweetText := by
  simp only [normRow, h, apply_ite Row.tweetText, ite_self]
  simp

theorem normRow_emoji_of_has (sch : Schema) (g : Rng) (now : Int) (i : Nat)
    (r : Row) (h : sch.hasEmoji = true) :
    (normRow sch g now i r).emoji = r.emoji := by
  simp only [normRow, h, if_true, apply_ite Row.emoji, ite_self]

theorem normRow_date_of_has (sch : Schema) (g : Rng) (now : Int) (i : Nat)
    (r : Row) (h : sch.hasDate = true) :
    (normRow sch g now i r).date = .dt ((parseDateCell r.date).getD 0) := by
  simp only [normRow, h, if_true, apply_ite Row.date, ite_self]

theorem normRow_date_of_not_has (sch : Schema) (g : Rng) (now : Int) (i : Nat)
    (r : Row) (h : sch.hasDate = false) :
    (normRow sch g now i r).date = .dt (now - 720 +
      24 * (npRandint 0 30 (g.dayDraw i) : Int) +
      (npRandint 0 23 (g.hourDraw i) : Int)) := by
  simp only [normRow, h, apply_ite Row.date, ite_self]
  simp

/-! ### Lemmas about `mapIdxFrom` -/

theorem length_mapIdxFrom (f : Nat → Row → Row) :
    ∀ (i : Nat) (rs : List Row), (mapIdxFrom f i rs).length = rs.length := by
  intro i rs
  induction rs generalizing i with
  | nil => rfl
  | cons r rs ih => simp [mapIdxFrom, ih]

theorem getD_mapIdxFrom (f : Nat → Row → Row) (d : Row) :
    ∀ (i k : Nat) (rs : List Row), k < rs.length →
      (mapIdxFrom f i rs).getD k d = f (i + k) (rs.getD k d) := by
  intro i k rs
  induction rs generalizing i k with
  | nil => intro h; simp at h
  | cons r rs ih =>
    intro h
    match k with
    | 0 => simp [mapIdxFrom]
    | k + 1 =>
      have hk : k < rs.length := by simpa using h
      simp only [mapIdxFrom, List.getD_cons_succ]
      rw [ih (i + 1) k hk]
      congr 1
      omega

theorem countP_mapIdxFrom (f : Nat → Row → Row) (p : Row → Bool)
    (h : ∀ j r, p (f j r) = p r) :
    ∀ (i : Nat) (rs : List Row), (mapIdxFrom f i rs).countP p = rs.countP p := by
  intro i rs
  induction rs generalizing i with
  | nil => rfl
  | cons r rs ih => simp [mapIdxFrom, List.countP_cons, ih, h]

theorem mapIdxFrom_eq_self (f : Nat → Row → Row)
    (h : ∀ j r, f j r = r) :
    ∀ (i : Nat) (rs : List Row), mapIdxFrom f i rs = rs := by
  intro i rs
  induction rs generalizing i with
  | nil => rfl
  | cons r rs ih => simp [mapIdxFrom, h, ih]

theorem mem_mapIdxFrom {f : Nat → Row → Row} {r2 : Row} :
    ∀ {i : Nat} {rs : List Row}, r2 ∈ mapIdxFrom f i rs →
      ∃ j r, r ∈ rs ∧ r2 = f j r := by
  intro i rs
  induction rs generalizing i with
  | nil => intro h; simp [mapIdxFrom] at h
  | cons r rs ih =>
    intro h
    rcases List.mem_cons.mp h with heq | hmem
    · exact ⟨i, r, List.mem_cons_self _ _, heq⟩
    · rcases ih hmem with ⟨j, r0, hr0, heq⟩
      exact ⟨j, r0, List.mem_cons_of_mem _ hr0, heq⟩

theorem map_mapIdxFrom {β : Type} (f : Nat → Row → Row) (pr : Row → β)
    (h : ∀ j r, pr (f j r) = pr r) :
    ∀ (i : Nat) (rs : List Row), (mapIdxFrom f i rs).map pr = rs.map pr := by
  intro i rs
  induction rs generalizing i with
  | nil => rfl
  | cons r rs ih => simp [mapIdxFrom, ih, h]

/-! ### Concrete objects used by witnesses and counterexamples -/

/-- A constant stream of draws. -/
def rng0 : Rng := ⟨fun _ => 0, fun _ => 0, fun _ => 0, fun _ => 0⟩

/-- A row whose fields are all defaults except the given emotion. -/
def rowEmo (e : String) : Row := ⟨0, "", .dt 0, "", "", "", "", "", e⟩

/-- A concrete filtered table whose only column is `Emotion`, holding the
values `["b", "a"]` (both counts are 1, so the mode is tied). -/
def emoTable : Table :=
  ⟨⟨false, false, false, false, false, false, false, false, true⟩,
   [rowEmo "b", rowEmo "a"]⟩

/-- A concrete table that has a `Sentiment` column but no rows. -/
def sentEmptyTable : Table :=
  ⟨⟨false, false, false, false, false, false, false, true, false⟩, []⟩

/-! ### Claim C6 -/

/-- C6: the Normalizer fails exactly on unreadable input (the `none`
input) or on a present `Date` column containing an unparseable cell; in
that case the caught error hands the caller the empty table and the
`df.empty` guard keeps every derivation from running; on every other
input it succeeds. -/
theorem C6_normalize_totality (input : Option Table) (g : Rng) (now : Int) :
    (process_data input g now = none ↔
      input = none ∨ ∃ T, input = some T ∧ T.schema.hasDate = true ∧
        ∃ r ∈ T.rows, parseDateCell r.date = none) ∧
    (process_data input g now = none →
      loadedTable input g now = emptyTable ∧
      derivationsRun (loadedTable input g now) = false) := by
  constructor
  · cases input with
    | none => simp [process_data]
    | some T =>
      rw [process_data]
      by_cases hd : datesParseable T.schema T.rows
      · rw [if_pos hd]
        simp only [reduceCtorEq, false_iff]
        push_neg
        refine ⟨by simp, ?_⟩
        intro T2 hT2
        have hT2eq : T2 = T := by
          have := hT2
          simp at this
          exact this.symm
        subst hT2eq
        intro hdate r hr
        rw [datesParseable, hdate] at hd
        simp only [Bool.not_true, Bool.false_or] at hd
        have := (List.all_eq_true.mp hd) r hr
        simp only [Option.isSome_iff_exists] at this
        rcases this with ⟨t, ht⟩
        simp [ht]
      · rw [if_neg hd]
        simp only [true_iff]
        right
        refine ⟨T, rfl, ?_⟩
        rw [datesParseable] at hd
        simp only [Bool.or_eq_true, Bool.not_eq_true', not_or,
          Bool.not_eq_false] at hd
        rcases hd with ⟨hdate, hall⟩
        have : ¬ ∀ r ∈ T.rows, ((parseDateCell r.date).isSome = true) := by
          intro hc
          exact hall (List.all_eq_true.mpr hc)
        push_neg at this
        rcases this with ⟨r, hr, hns⟩
        refine ⟨hdate, r, hr, ?_⟩
        rcases Option.eq_none_or_eq_some (parseDateCell r.date) with h0 | h0
        · exact h0
        · exfalso
          rcases h0 with ⟨t, ht⟩
          rw [ht] at hns
          simp at hns
  · intro hnone
    rw [loadedTable, hnone]
    constructor
    · rfl
    · rfl

/-! ### Claim C5 -/

theorem mapIdxFrom_eq_self_of_mem (f : Nat → Row → Row) :
    ∀ (i : Nat) (rs : List Row), (∀ j r, r ∈ rs → f j r = r) →
      mapIdxFrom f i rs = rs := by
  intro i rs
  induction rs generalizing i with
  | nil => intro _; rfl
  | cons r rs ih =>
    intro h
    rw [mapIdxFrom]
    rw [h i r (List.mem_cons_self _ _)]
    rw [ih (i + 1) (fun j r2 hr2 => h j r2 (List.mem_cons_of_mem _ hr2))]

/-- C5: a table that already carries the five canonical columns, with
every `Date` cell an already parsed date-time, is returned unchanged by
the Normalizer: same schema, same rows, same values. -/
theorem normSchema_eq_self (s : Schema) (ha : s.hasTweetID = true)
    (hb : s.hasAuthorID = true) (hc : s.hasDate = true)
    (hd : s.hasTweetText = true) (he : s.hasEmoji = true) :
    normSchema s = s := by
  obtain ⟨a1, a2, a3, a4, a5, a6, a7, a8, a9⟩ := s
  cases a1 <;> cases a2 <;> cases a3 <;> cases a5 <;> cases a6 <;>
    simp_all [normSchema]

theorem C5_normalize_idempotent (T : Table) (g : Rng) (now : Int)
    (h1 : T.schema.hasTweetID = true) (h2 : T.schema.hasAuthorID = true)
    (h3 : T.schema.hasDate = true) (h4 : T.schema.hasTweetText = true)
    (h5 : T.schema.hasEmoji = true)
    (hdt : ∀ r ∈ T.rows, ∃ t, r.date = .dt t) :
    process_data (some T) g now = some T := by
  rw [process_data]
  have hp : datesParseable T.schema T.rows = true := by
    rw [datesParseable]
    have hall : T.rows.all (fun r => (parseDateCell r.date).isSome) = true := by
      rw [List.all_eq_true]
      intro r hr
      rcases hdt r hr with ⟨t, ht⟩
      rw [ht]
      rfl
    rw [hall]
    simp
  rw [if_pos hp]
  have hrows : mapIdxFrom (normRow T.schema g now) 0 T.rows = T.rows := by
    apply mapIdxFrom_eq_self_of_mem
    intro j r hr
    rcases hdt r hr with ⟨t, ht⟩
    rw [normRow]
    simp only [h1, h2, h3, h4, h5, if_true, Bool.not_true, Bool.and_false,
      ite_self, ht, parseDateCell, Option.getD_some]
    simp only [Bool.false_eq_true, if_false, ite_self]
    rw [← ht]
  rw [hrows, normSchema_eq_self T.schema h1 h2 h3 h4 h5]

/-- A concrete canonical table for the C5 witness: all five canonical
columns present, one row, date already parsed. -/
def canonTable : Table :=
  ⟨⟨true, true, true, false, true, true, false, false, false⟩,
   [⟨1, "a", .dt 5, "", "txt", "🙂", "", "", ""⟩]⟩

/-- Witness for C5 at a concrete canonical table. -/
theorem C5_normalize_idempotent_witness :
    process_data (some canonTable) rng0 0 = some canonTable := by
  apply C5_normalize_idempotent canonTable rng0 0 rfl rfl rfl rfl rfl
  intro r hr
  have hreq : r = ⟨1, "a", .dt 5, "", "txt", "🙂", "", "", ""⟩ := by
    simpa [canonTable] using hr
  rw [hreq]
  exact ⟨5, rfl⟩

/-! ### Claim C9 -/

theorem getD_eq_default_of_le {l : List Row} {k : Nat} (d : Row)
    (h : l.length ≤ k) : l.getD k d = d := by
  rw [List.getD_eq_getElem?_getD, List.getElem?_eq_none h]
  rfl

/-- C9: a successful normalization preserves the number of rows exactly
and passes every raw column other than `Date` through unchanged, value by
value and in row order; it only adds the missing canonical columns and
re-parses `Date` when that column is present. -/
theorem C9_normalize_frame (T T2 : Table) (g : Rng) (now : Int)
    (h : process_data (some T) g now = some T2) :
    T2.rows.length = T.rows.length ∧
    T2.schema = normSchema T.schema ∧
    ∀ k : Nat,
      (T2.rows.getD k default).festival = (T.rows.getD k default).festival ∧
      (T2.rows.getD k default).sentiment = (T.rows.getD k default).sentiment ∧
      (T2.rows.getD k default).emotion = (T.rows.getD k default).emotion ∧
      (T2.rows.getD k default).tweet = (T.rows.getD k default).tweet ∧
      (T.schema.hasTweetID = true →
        (T2.rows.getD k default).tweetID = (T.rows.getD k default).tweetID) ∧
      (T.schema.hasAuthorID = true →
        (T2.rows.getD k default).authorID = (T.rows.getD k default).authorID) ∧
      (T.schema.hasTweetText = true →
        (T2.rows.getD k default).tweetText
          = (T.rows.getD k default).tweetText) ∧
      (T.schema.hasEmoji = true →
        (T2.rows.getD k default).emoji = (T.rows.getD k default).emoji) ∧
      (T.schema.hasDate = true → k < T.rows.length →
        (T2.rows.getD k default).date =
          .dt ((parseDateCell (T.rows.getD k default).date).getD 0)) := by
  rw [process_data] at h
  by_cases hd : datesParseable T.schema T.rows = true
  · rw [if_pos hd] at h
    injection h with h2
    subst h2
    refine ⟨length_mapIdxFrom _ _ _, rfl, ?_⟩
    intro k
    by_cases hk : k < T.rows.length
    · have hget := getD_mapIdxFrom (normRow T.schema g now) default 0 k T.rows hk
      rw [Nat.zero_add] at hget
      rw [hget]
      refine ⟨normRow_festival _ _ _ _ _, normRow_sentiment _ _ _ _ _,
        normRow_emotion _ _ _ _ _, normRow_tweet _ _ _ _ _,
        fun hh => normRow_tweetID_of_has _ _ _ _ _ hh,
        fun hh => normRow_authorID_of_has _ _ _ _ _ hh,
        fun hh => normRow_tweetText_of_has _ _ _ _ _ hh,
        fun hh => normRow_emoji_of_has _ _ _ _ _ hh,
        fun hh _ => normRow_date_of_has _ _ _ _ _ hh⟩
    · have hk2 : T.rows.length ≤ k := Nat.le_of_not_lt hk
      have hk3 : (mapIdxFrom (normRow T.schema g now) 0 T.rows).length ≤ k := by
        rw [length_mapIdxFrom]
        exact hk2
      rw [getD_eq_default_of_le default hk2, getD_eq_default_of_le default hk3]
      exact ⟨rfl, rfl, rfl, rfl, fun _ => rfl, fun _ => rfl, fun _ => rfl,
        fun _ => rfl, fun _ hlt => absurd hlt hk⟩
  · rw [if_neg hd] at h
    exact absurd h (by simp)

/-- Witness for C9: the concrete canonical table normalizes successfully,
so the frame conditions hold for it. -/
theorem C9_normalize_frame_witness :
    canonTable.rows.length = canonTable.rows.length ∧
    canonTable.schema = normSchema canonTable.schema ∧
    ∀ k : Nat,
      (canonTable.rows.getD k default).festival
        = (canonTable.rows.getD k default).festival ∧
      (canonTable.rows.getD k default).sentiment
        = (canonTable.rows.getD k default).sentiment ∧
      (canonTable.rows.getD k default).emotion
        = (canonTable.rows.getD k default).emotion ∧
      (canonTable.rows.getD k default).tweet
        = (canonTable.rows.getD k default).tweet ∧
      (canonTable.schema.hasTweetID = true →
        (canonTable.rows.getD k default).tweetID
          = (canonTable.rows.getD k default).tweetID) ∧
      (canonTable.schema.hasAuthorID = true →
        (canonTable.rows.getD k default).authorID
          = (canonTable.rows.getD k default).authorID) ∧
      (canonTable.schema.hasTweetText = true →
        (canonTable.rows.getD k default).tweetText
          = (canonTable.rows.getD k default).tweetText) ∧
      (canonTable.schema.hasEmoji = true →
        (canonTable.rows.getD k default).emoji
          = (canonTable.rows.getD k default).emoji) ∧
      (canonTable.schema.hasDate = true → k < canonTable.rows.length →
        (canonTable.rows.getD k default).date =
          .dt ((parseDateCell (canonTable.rows.getD k default).date).getD 0)) := by
  exact C9_normalize_frame canonTable canonTable rng0 0 (by decide)

/-- Witness for C6, applied at the unreadable input. -/
theorem C6_normalize_totality_witness :
    (process_data none rng0 0 = none ↔
      (none : Option Table) = none ∨ ∃ T, (none : Option Table) = some T ∧
        T.schema.hasDate = true ∧ ∃ r ∈ T.rows, parseDateCell r.date = none) ∧
    (process_data none rng0 0 = none →
      loadedTable none rng0 0 = emptyTable ∧
      derivationsRun (loadedTable none rng0 0) = false) :=
  C6_normalize_totality none rng0 0

/-! ### Claim C3 -/

/-- A concrete one-row raw table carrying none of the recognized columns
(in particular no `Tweet_ID` and no `Date`). -/
def noIdTable : Table :=
  ⟨⟨false, false, false, false, false, false, false, false, false⟩,
   [⟨0, "", .dt 0, "", "", "", "", "", ""⟩]⟩

/-- A two-row raw table carrying none of the recognized columns. -/
def twoRowTable : Table :=
  ⟨⟨false, false, false, false, false, false, false, false, false⟩,
   [⟨0, "", .dt 0, "", "", "", "", "", ""⟩,
    ⟨0, "", .dt 0, "", "", "", "", "", ""⟩]⟩

/-- The normalization of `noIdTable` under the constant stream. -/
def procNoId : Table :=
  ⟨normSchema noIdTable.schema, mapIdxFrom (normRow noIdTable.schema rng0 0) 0
    noIdTable.rows⟩

/-- C3 counterexample: the claimed upper endpoint 9,999,999 is never a
possible outcome — `np.random.randint(1000000, 9999999)` excludes its
upper bound, so no random stream makes a synthesized id equal 9,999,999. -/
theorem C3_id_range_counterexample :
    ¬ ∃ (g : Rng) (now : Int) (T2 : Table),
      process_data (some noIdTable) g now = some T2 ∧
      (T2.rows.getD 0 default).tweetID = 9999999 := by
  rintro ⟨g, now, T2, hp, hid⟩
  rw [process_data, if_pos (by rfl)] at hp
  injection hp with hp2
  subst hp2
  have hget := getD_mapIdxFrom (normRow noIdTable.schema g now) default 0 0
    noIdTable.rows (by simp [noIdTable])
  rw [hget, normRow_tweetID_of_not_has _ _ _ _ _ rfl, npRandint] at hid
  omega

/-- C3 (amended): for every raw table lacking `Tweet_ID`, each row's id is
synthesized as `1000000 + draw % 8999999`, so it always lies in the
inclusive range [1,000,000, 9,999,998] (numpy's `randint` excludes the
upper bound 9,999,999); every value of that range is a possible outcome;
and uniqueness is not enforced — a stream exists on which two rows
collide. -/
theorem C3_id_range_amended :
    (∀ (T T2 : Table) (g : Rng) (now : Int),
      T.schema.hasTweetID = false →
      process_data (some T) g now = some T2 →
      ∀ k, k < T2.rows.length →
        1000000 ≤ (T2.rows.getD k default).tweetID ∧
        (T2.rows.getD k default).tweetID ≤ 9999998) ∧
    (∀ v : Nat, 1000000 ≤ v → v ≤ 9999998 →
      ∃ (g : Rng) (T2 : Table),
        process_data (some noIdTable) g 0 = some T2 ∧
        (T2.rows.getD 0 default).tweetID = v) ∧
    (∃ (g : Rng) (T2 : Table),
      process_data (some twoRowTable) g 0 = some T2 ∧
      2 ≤ T2.rows.length ∧
      (T2.rows.getD 0 default).tweetID = (T2.rows.getD 1 default).tweetID) := by
  refine ⟨?_, ?_, ?_⟩
  · intro T T2 g now hno hp k hk
    rw [process_data] at hp
    by_cases hd : datesParseable T.schema T.rows = true
    · rw [if_pos hd] at hp
      injection hp with hp2
      subst hp2
      rw [length_mapIdxFrom] at hk
      have hget := getD_mapIdxFrom (normRow T.schema g now) default 0 k
        T.rows hk
      rw [Nat.zero_add] at hget
      rw [hget, normRow_tweetID_of_not_has _ _ _ _ _ hno, npRandint]
      omega
    · rw [if_neg hd] at hp
      exact absurd hp (by simp)
  · intro v hv1 hv2
    refine ⟨⟨fun _ => v - 1000000, fun _ => 0, fun _ => 0, fun _ => 0⟩,
      _, rfl, ?_⟩
    have hget := getD_mapIdxFrom
      (normRow noIdTable.schema
        ⟨fun _ => v - 1000000, fun _ => 0, fun _ => 0, fun _ => 0⟩ 0)
      default 0 0 noIdTable.rows (by simp [noIdTable])
    rw [hget, normRow_tweetID_of_not_has _ _ _ _ _ rfl, npRandint]
    have hlt : v - 1000000 < 9999999 - 1000000 := by omega
    rw [Nat.mod_eq_of_lt hlt]
    omega
  · exact ⟨rng0, _, rfl, by decide, by decide⟩

/-- Witness for C3 (amended): the bound part applied to the concrete
normalized table, the reachability part applied at the value 5,000,000. -/
theorem C3_id_range_amended_witness :
    (1000000 ≤ (procNoId.rows.getD 0 default).tweetID ∧
      (procNoId.rows.getD 0 default).tweetID ≤ 9999998) ∧
    ∃ (g : Rng) (T2 : Table),
      process_data (some noIdTable) g 0 = some T2 ∧
      (T2.rows.getD 0 default).tweetID = 5000000 :=
  ⟨(C3_id_range_amended.1 noIdTable procNoId rng0 0 rfl rfl 0 (by decide)),
   (C3_id_range_amended.2.1 5000000 (by decide) (by decide))⟩

/-! ### Claim C4 -/

/-- C4: when the raw table has no `Date` column, every synthesized
timestamp equals `now` minus 30 days (720 hours) plus a whole number of
days in 0..29 plus a whole number of hours in 0..22, and therefore lies in
the window `[now - 30 days, now)`, the lower bound included. -/
theorem C4_date_window (T T2 : Table) (g : Rng) (now : Int)
    (hnd : T.schema.hasDate = false)
    (h : process_data (some T) g now = some T2) :
    ∀ k, k < T2.rows.length →
      ∃ (dd hh : Nat), dd ≤ 29 ∧ hh ≤ 22 ∧
        (T2.rows.getD k default).date
          = .dt (now - 720 + 24 * (dd : Int) + (hh : Int)) ∧
        now - 720 ≤ now - 720 + 24 * (dd : Int) + (hh : Int) ∧
        now - 720 + 24 * (dd : Int) + (hh : Int) < now := by
  rw [process_data] at h
  by_cases hd : datesParseable T.schema T.rows = true
  · rw [if_pos hd] at h
    injection h with h2
    subst h2
    intro k hk
    rw [length_mapIdxFrom] at hk
    have hget := getD_mapIdxFrom (normRow T.schema g now) default 0 k T.rows hk
    rw [Nat.zero_add] at hget
    rw [hget, normRow_date_of_not_has _ _ _ _ _ hnd]
    refine ⟨npRandint 0 30 (g.dayDraw k), npRandint 0 23 (g.hourDraw k),
      ?_, ?_, rfl, ?_, ?_⟩
    · rw [npRandint]
      omega
    · rw [npRandint]
      omega
    · have h1 : (0 : Int) ≤ (npRandint 0 30 (g.dayDraw k) : Int) := by positivity
      have h2 : (0 : Int) ≤ (npRandint 0 23 (g.hourDraw k) : Int) := by positivity
      omega
    · have h1 : (npRandint 0 30 (g.dayDraw k) : Nat) ≤ 29 := by
        rw [npRandint]; omega
      have h2 : (npRandint 0 23 (g.hourDraw k) : Nat) ≤ 22 := by
        rw [npRandint]; omega
      have h1i : ((npRandint 0 30 (g.dayDraw k) : Nat) : Int) ≤ 29 := by
        exact_mod_cast h1
      have h2i : ((npRandint 0 23 (g.hourDraw k) : Nat) : Int) ≤ 22 := by
        exact_mod_cast h2
      omega
  · rw [if_neg hd] at h
    exact absurd h (by simp)

/-- Witness for C4 at the concrete dateless table and `now = 0`. -/
theorem C4_date_window_witness :
    ∃ (dd hh : Nat), dd ≤ 29 ∧ hh ≤ 22 ∧
      (procNoId.rows.getD 0 default).date
        = .dt ((0 : Int) - 720 + 24 * (dd : Int) + (hh : Int)) ∧
      (0 : Int) - 720 ≤ (0 : Int) - 720 + 24 * (dd : Int) + (hh : Int) ∧
      (0 : Int) - 720 + 24 * (dd : Int) + (hh : Int) < 0 :=
  C4_date_window noIdTable procNoId rng0 0 rfl rfl 0 (by decide)

/-! ### Claim C8 -/

theorem df_filt_rows (T : Table) (fest sent : String) :
    (df_filt T fest sent).rows = T.rows.filter (fun r =>
      (fest == "All" || !T.schema.hasFestival || r.festival == fest) &&
      (sent == "All" || !T.schema.hasSentiment || r.sentiment == sent)) := by
  simp only [df_filt]
  by_cases h1 : (fest != "All" && T.schema.hasFestival) = true
  · have h1' := h1
    rw [Bool.and_eq_true] at h1'
    rcases h1' with ⟨h1a, h1b⟩
    have hfa : (fest == "All") = false := by
      simp only [bne_iff_ne, ne_eq] at h1a
      simpa using h1a
    have hA : ∀ r : Row, (fest == "All" || !T.schema.hasFestival
        || r.festival == fest) = (r.festival == fest) := by
      intro r
      rw [hfa, h1b]
      simp
    rw [if_pos h1]
    by_cases h2 : (sent != "All" && T.schema.hasSentiment) = true
    · have h2' := h2
      rw [Bool.and_eq_true] at h2'
      rcases h2' with ⟨h2a, h2b⟩
      have hsa : (sent == "All") = false := by
        simp only [bne_iff_ne, ne_eq] at h2a
        simpa using h2a
      rw [if_pos h2]
      simp only [List.filter_filter]
      apply List.filter_congr
      intro r _
      rw [hA r, hsa, h2b]
      simp [Bool.and_comm]
    · have hB : ∀ r : Row, (sent == "All" || !T.schema.hasSentiment
          || r.sentiment == sent) = true := by
        intro r
        rw [Bool.and_eq_true, not_and_or] at h2
        rcases h2 with hx | hx
        · have : sent = "All" := by
            simpa using hx
          subst this
          simp
        · have : T.schema.hasSentiment = false := Bool.not_eq_true _ ▸ hx
          rw [this]
          simp
      rw [if_neg h2]
      apply List.filter_congr
      intro r _
      rw [hA r, hB r]
      simp
  · have hA : ∀ r : Row, (fest == "All" || !T.schema.hasFestival
        || r.festival == fest) = true := by
      intro r
      rw [Bool.and_eq_true, not_and_or] at h1
      rcases h1 with hx | hx
      · have : fest = "All" := by simpa using hx
        subst this
        simp
      · have : T.schema.hasFestival = false := Bool.not_eq_true _ ▸ hx
        rw [this]
        simp
    rw [if_neg h1]
    by_cases h2 : (sent != "All" && T.schema.hasSentiment) = true
    · have h2' := h2
      rw [Bool.and_eq_true] at h2'
      rcases h2' with ⟨h2a, h2b⟩
      have hsa : (sent == "All") = false := by
        simp only [bne_iff_ne, ne_eq] at h2a
        simpa using h2a
      rw [if_pos h2]
      apply List.filter_congr
      intro r _
      rw [hA r, hsa, h2b]
      simp
    · have hB : ∀ r : Row, (sent == "All" || !T.schema.hasSentiment
          || r.sentiment == sent) = true := by
        intro r
        rw [Bool.and_eq_true, not_and_or] at h2
        rcases h2 with hx | hx
        · have : sent = "All" := by simpa using hx
          subst this
          simp
        · have : T.schema.hasSentiment = false := Bool.not_eq_true _ ▸ hx
          rw [this]
          simp
      rw [if_neg h2]
      symm
      rw [List.filter_eq_self]
      intro r _
      rw [hA r, hB r]
      rfl

/-- A concrete raw table with only a `Festival` column. -/
def festTable : Table :=
  ⟨⟨false, false, false, false, false, false, true, false, false⟩,
   [⟨0, "", .dt 0, "", "", "", "Diwali", "", ""⟩,
    ⟨0, "", .dt 0, "", "", "", "Holi", "", ""⟩,
    ⟨0, "", .dt 0, "", "", "", "Diwali", "", ""⟩]⟩

/-- The normalization of `festTable` under the constant stream. -/
def procFest : Table :=
  ⟨normSchema festTable.schema,
   mapIdxFrom (normRow festTable.schema rng0 0) 0 festTable.rows⟩

/-- C8: row filtering keeps exactly the rows matching the festival
selection AND the sentiment selection, a selector equal to `"All"` or an
absent column being a no-op that excludes no rows; and for a specific
festival with sentiment `"All"`, `total_count` of the filtered normalized
table equals the number of raw rows whose `Festival` equals that value. -/
theorem C8_filtering (R T2 : Table) (g : Rng) (now : Int) (fest : String)
    (hf : R.schema.hasFestival = true) (hne : fest ≠ "All")
    (hp : process_data (some R) g now = some T2) :
    (∀ (T : Table) (fest2 sent2 : String),
      (df_filt T fest2 sent2).rows = T.rows.filter (fun r =>
        (fest2 == "All" || !T.schema.hasFestival || r.festival == fest2) &&
        (sent2 == "All" || !T.schema.hasSentiment || r.sentiment == sent2))) ∧
    total_count (df_filt T2 fest "All")
      = R.rows.countP (fun r => r.festival == fest) := by
  refine ⟨fun T fest2 sent2 => df_filt_rows T fest2 sent2, ?_⟩
  rw [process_data] at hp
  by_cases hd : datesParseable R.schema R.rows = true
  · rw [if_pos hd] at hp
    injection hp with hp2
    subst hp2
    rw [total_count, df_filt_rows]
    have hsf : (normSchema R.schema).hasFestival = true := by
      rw [normSchema]
      exact hf
    have hfa : (fest == "All") = false := by simpa using hne
    have hcongr : (mapIdxFrom (normRow R.schema g now) 0 R.rows).filter
          (fun r => (fest == "All" || !(normSchema R.schema).hasFestival
              || r.festival == fest) &&
            (("All" : String) == "All" || !(normSchema R.schema).hasSentiment
              || r.sentiment == "All"))
        = (mapIdxFrom (normRow R.schema g now) 0 R.rows).filter
          (fun r => r.festival == fest) := by
      apply List.filter_congr
      intro r _
      rw [hfa, hsf]
      simp
    rw [hcongr, ← List.countP_eq_length_filter]
    exact countP_mapIdxFrom _ _
      (fun j r => by rw [normRow_festival]) 0 R.rows
  · rw [if_neg hd] at hp
    exact absurd hp (by simp)

/-- Witness for C8 at the concrete festival table, festival `"Diwali"`,
sentiment `"All"`. -/
theorem C8_filtering_witness :
    total_count (df_filt procFest "Diwali" "All")
      = festTable.rows.countP (fun r => r.festival == "Diwali") :=
  (C8_filtering festTable procFest rng0 0 "Diwali" rfl (by decide) rfl).2

/-! ### Claim C1 -/

/-- The tie-break the spec prescribes for `top_emotion`, written from the
spec's words for comparison with the code: the first-encountered value
among those of maximal count, `"N/A"` when the column is absent or
empty. -/
def top_emotion_specFirst (T : Table) : String :=
  if T.schema.hasEmotion then
    match (uniqueInOrder (colEmotion T)).filter
        (fun v => (colEmotion T).count v == maxCount (colEmotion T)) with
    | [] => "N/A"
    | m :: _ => m
  else "N/A"

/-- C1 counterexample: on the Emotion column `["b", "a"]` both values are
tied at count 1; pandas `mode` returns the tied values sorted, so the code
yields `"a"`, while the first-encountered tied value is `"b"`. -/
theorem C1_top_mode_counterexample :
    top_emotion emoTable = "a" ∧ top_emotion_specFirst emoTable = "b" ∧
    top_emotion emoTable ≠ top_emotion_specFirst emoTable := by
  refine ⟨?_, ?_, ?_⟩ <;> decide

theorem top_of_mode_facts (l : List String) (hne : l ≠ []) :
    ∃ m rest, seriesMode l = m :: rest ∧ m ∈ l ∧
      l.count m = maxCount l ∧
      ∀ v ∈ l, l.count v = maxCount l → strLe m v = true := by
  rcases hsm : seriesMode l with _ | ⟨m, rest⟩
  · exact absurd hsm (seriesMode_ne_nil hne)
  · rcases seriesMode_head_min hsm with ⟨hm, hc, hmin⟩
    exact ⟨m, rest, rfl, hm, hc, hmin⟩

/-- C1 (amended): `top_emotion` (resp. `top_emoji`) is a most frequent
value of the `Emotion` (resp. `Emoji`) column of the filtered table; when
several values share the maximal count, the returned one is the least tied
value in ascending string order — pandas `mode` sorts its result — not the
first-encountered one; `"N/A"` is returned when the column is absent or
empty. -/
theorem C1_top_mode_amended (T : Table) :
    (T.schema.hasEmotion = true → colEmotion T ≠ [] →
      top_emotion T ∈ colEmotion T ∧
      (colEmotion T).count (top_emotion T) = maxCount (colEmotion T) ∧
      ∀ v ∈ colEmotion T,
        (colEmotion T).count v = maxCount (colEmotion T) →
          strLe (top_emotion T) v = true) ∧
    (T.schema.hasEmotion = false → top_emotion T = "N/A") ∧
    (T.schema.hasEmotion = true → colEmotion T = [] →
      top_emotion T = "N/A") ∧
    (T.schema.hasEmoji = true → colEmoji T ≠ [] →
      top_emoji T ∈ colEmoji T ∧
      (colEmoji T).count (top_emoji T) = maxCount (colEmoji T) ∧
      ∀ v ∈ colEmoji T,
        (colEmoji T).count v = maxCount (colEmoji T) →
          strLe (top_emoji T) v = true) ∧
    (T.schema.hasEmoji = false → top_emoji T = "N/A") ∧
    (T.schema.hasEmoji = true → colEmoji T = [] → top_emoji T = "N/A") := by
  refine ⟨?_, ?_, ?_, ?_, ?_, ?_⟩
  · intro hh hne
    rcases top_of_mode_facts (colEmotion T) hne with ⟨m, rest, hsm, hm, hc, hmin⟩
    have ht : top_emotion T = m := by
      rw [top_emotion, if_pos hh, hsm]
    rw [ht]
    exact ⟨hm, hc, hmin⟩
  · intro hh
    rw [top_emotion, if_neg (by simp [hh])]
  · intro hh hempty
    rw [top_emotion, if_pos hh, hempty]
    rfl
  · intro hh hne
    rcases top_of_mode_facts (colEmoji T) hne with ⟨m, rest, hsm, hm, hc, hmin⟩
    have ht : top_emoji T = m := by
      rw [top_emoji, if_pos hh, hsm]
    rw [ht]
    exact ⟨hm, hc, hmin⟩
  · intro hh
    rw [top_emoji, if_neg (by simp [hh])]
  · intro hh hempty
    rw [top_emoji, if_pos hh, hempty]
    rfl

/-- Witness for C1 (amended) at the concrete tied Emotion table. -/
theorem C1_top_mode_amended_witness :
    top_emotion emoTable ∈ colEmotion emoTable ∧
    (colEmotion emoTable).count (top_emotion emoTable)
      = maxCount (colEmotion emoTable) ∧
    ∀ v ∈ colEmotion emoTable,
      (colEmotion emoTable).count v = maxCount (colEmotion emoTable) →
        strLe (top_emotion emoTable) v = true :=
  (C1_top_mode_amended emoTable).1 rfl (by decide)

/-! ### Claim C2 -/

/-- C2 counterexample: on a table that has a `Sentiment` column but zero
rows, the gauge derivation is skipped — the code produces no value at all,
in particular not the claimed 0. -/
theorem C2_positive_rate_counterexample :
    positive_rate? sentEmptyTable = none ∧
    positive_rate? sentEmptyTable ≠ some 0 := by
  constructor
  · rfl
  · intro h
    simp [positive_rate?, sentEmptyTable] at h

/-- C2 (amended): when the `Sentiment` column is present and the filtered
table is non-empty, the gauge value equals
`positive_count / total_count * 100` and lies in [0, 100]; when
`total_count = 0` or the column is absent, the gauge is skipped entirely —
no value is computed, so no NaN and no division error can arise — rather
than yielding 0. -/
theorem C2_positive_rate_amended (T : Table) :
    (T.schema.hasSentiment = true → 0 < T.rows.length →
      positive_rate? T
        = some (((positive_count T : ℚ) / (total_count T : ℚ)) * 100) ∧
      ∀ q, positive_rate? T = some q → 0 ≤ q ∧ q ≤ 100) ∧
    (T.schema.hasSentiment = false ∨ T.rows.length = 0 →
      positive_rate? T = none) := by
  constructor
  · intro hs hpos
    have hcond : (T.schema.hasSentiment && decide (0 < T.rows.length)) = true := by
      rw [hs]
      simpa using hpos
    have heq : positive_rate? T
        = some (((positive_count T : ℚ) / (total_count T : ℚ)) * 100) := by
      rw [positive_rate?, if_pos hcond]
    refine ⟨heq, ?_⟩
    intro q hq
    rw [heq] at hq
    injection hq with hq2
    subst hq2
    have htpos : (0 : ℚ) < (total_count T : ℚ) := by
      rw [total_count]
      exact_mod_cast hpos
    have hcle : (positive_count T : ℚ) ≤ (total_count T : ℚ) := by
      rw [positive_count, total_count]
      exact_mod_cast List.countP_le_length _
    constructor
    · positivity
    · have hdiv : (positive_count T : ℚ) / (total_count T : ℚ) ≤ 1 :=
        (div_le_one htpos).mpr hcle
      calc (positive_count T : ℚ) / (total_count T : ℚ) * 100
          ≤ 1 * 100 := by
            apply mul_le_mul_of_nonneg_right hdiv
            norm_num
        _ = 100 := by norm_num
  · intro hor
    rw [positive_rate?]
    rcases hor with hs | hz
    · rw [hs]
      simp
    · rw [hz]
      simp

/-- A concrete table whose `Sentiment` column is
`["Positive", "Positive", "Negative", "Negative"]`. -/
def sentTable : Table :=
  ⟨⟨false, false, false, false, false, false, false, true, false⟩,
   [⟨0, "", .dt 0, "", "", "", "", "Positive", ""⟩,
    ⟨0, "", .dt 0, "", "", "", "", "Positive", ""⟩,
    ⟨0, "", .dt 0, "", "", "", "", "Negative", ""⟩,
    ⟨0, "", .dt 0, "", "", "", "", "Negative", ""⟩]⟩

/-- Witness for C2 (amended) at the concrete four-row sentiment table. -/
theorem C2_positive_rate_amended_witness :
    positive_rate? sentTable
      = some (((positive_count sentTable : ℚ) / (total_count sentTable : ℚ))
        * 100) ∧
    ∀ q, positive_rate? sentTable = some q → 0 ≤ q ∧ q ≤ 100 :=
  (C2_positive_rate_amended sentTable).1 rfl (by decide)

/-! ### Claim C7 -/

/-- C7: `emoji_ranking` is a list of `(emoji, count)` pairs — each pair
records a value occurring in the `Emoji` column together with its exact
count — in descending count order, with equal-count pairs kept in
first-encounter order (on each count level the ranking is an in-order
sublist of the encounter-order count list); its length is at most
`min top_n (number of distinct emoji)`, and the sum of its counts is at
most `total_count`. -/
theorem C7_emoji_ranking (T : Table) (n : Nat)
    (he : T.schema.hasEmoji = true) :
    (∀ p ∈ emoji_counts T n,
      p.1 ∈ colEmoji T ∧ p.2 = (colEmoji T).count p.1) ∧
    (emoji_counts T n).Pairwise (fun p q => q.2 ≤ p.2) ∧
    (∀ c : Nat, ((emoji_counts T n).filter (fun p => p.2 == c)).Sublist
      ((valueCounts (colEmoji T)).filter (fun p => p.2 == c))) ∧
    (emoji_counts T n).length ≤ min n (uniqueInOrder (colEmoji T)).length ∧
    ((emoji_counts T n).map Prod.snd).sum ≤ total_count T := by
  have htake : (emoji_counts T n).Sublist (sortDesc (valueCounts (colEmoji T))) := by
    rw [emoji_counts]
    exact List.take_sublist _ _
  refine ⟨?_, ?_, ?_, ?_, ?_⟩
  · intro p hp
    have hp2 : p ∈ sortDesc (valueCounts (colEmoji T)) := htake.mem hp
    have hp3 : p ∈ valueCounts (colEmoji T) :=
      (sortDesc_perm _).mem_iff.mp hp2
    rw [valueCounts] at hp3
    rcases List.mem_map.mp hp3 with ⟨v, hv, hveq⟩
    rw [← hveq]
    exact ⟨mem_uniqueInOrder.mp hv, rfl⟩
  · exact (sortDesc_sorted _).sublist htake
  · intro c
    have h1 : ((emoji_counts T n).filter (fun p => p.2 == c)).Sublist
        ((sortDesc (valueCounts (colEmoji T))).filter (fun p => p.2 == c)) :=
      htake.filter _
    rw [filter_sortDesc] at h1
    exact h1
  · rw [emoji_counts, List.length_take, (sortDesc_perm _).length_eq,
      valueCounts, List.length_map]
  · have hsub : ((emoji_counts T n).map Prod.snd).Sublist
        ((sortDesc (valueCounts (colEmoji T))).map Prod.snd) :=
      htake.map _
    have hle := sublist_sum_le hsub
    have hperm : ((sortDesc (valueCounts (colEmoji T))).map Prod.snd).Perm
        ((valueCounts (colEmoji T)).map Prod.snd) :=
      (sortDesc_perm _).map _
    rw [hperm.sum_eq, sum_valueCounts, colEmoji, List.length_map] at hle
    exact hle

/-- The three-row table of the spec's test scenario: the `Emoji` column is
`["😀", "😀", "😂"]`. -/
def emojiTable : Table :=
  ⟨⟨false, false, false, false, false, true, false, false, false⟩,
   [⟨0, "", .dt 0, "", "", "😀", "", "", ""⟩,
    ⟨0, "", .dt 0, "", "", "😀", "", "", ""⟩,
    ⟨0, "", .dt 0, "", "", "😂", "", "", ""⟩]⟩

/-- Witness for C7 at the concrete three-row emoji table with top-10. -/
theorem C7_emoji_ranking_witness :
    (∀ p ∈ emoji_counts emojiTable 10,
      p.1 ∈ colEmoji emojiTable ∧ p.2 = (colEmoji emojiTable).count p.1) ∧
    (emoji_counts emojiTable 10).Pairwise (fun p q => q.2 ≤ p.2) ∧
    (∀ c : Nat,
      ((emoji_counts emojiTable 10).filter (fun p => p.2 == c)).Sublist
        ((valueCounts (colEmoji emojiTable)).filter (fun p => p.2 == c))) ∧
    (emoji_counts emojiTable 10).length
      ≤ min 10 (uniqueInOrder (colEmoji emojiTable)).length ∧
    ((emoji_counts emojiTable 10).map Prod.snd).sum
      ≤ total_count emojiTable :=
  C7_emoji_ranking emojiTable 10 rfl

/-! ### Claim C10 -/

theorem nodup_top_emojis (T : Table) (n : Nat) :
    (top_emojis T n).Nodup := by
  rw [top_emojis, emoji_counts, List.map_take]
  apply List.Nodup.sublist (List.take_sublist _ _)
  have hperm : ((sortDesc (valueCounts (colEmoji T))).map Prod.fst).Perm
      ((valueCounts (colEmoji T)).map Prod.fst) :=
    (sortDesc_perm _).map _
  rw [hperm.nodup_iff]
  exact nodup_fst_valueCounts _

theorem indicatorCell_eq_one {r : Row} {e : String} :
    indicatorCell r e = 1 → r.emoji = e := by
  rw [indicatorCell]
  by_cases h : (r.emoji == e) = true
  · intro _
    exact eq_of_beq h
  · simp [h]

/-- C10: each row of the one-hot indicator table `mat_df` holds at most
one 1 across the top-`n` emoji columns — its sum is exactly 1 when the
row's emoji is among the top-`n` and 0 otherwise — and two distinct emoji
indicator columns are never both 1 on the same row: the correlation input
measures mutual exclusivity, never joint occurrence. -/
theorem C10_one_hot (T : Table) (n : Nat) (he : T.schema.hasEmoji = true) :
    (∀ row ∈ mat_df T n, row.sum ≤ 1) ∧
    (∀ r ∈ T.rows,
      ((top_emojis T n).map (indicatorCell r)).sum
        = if r.emoji ∈ top_emojis T n then 1 else 0) ∧
    (∀ r ∈ T.rows, ∀ e1 ∈ top_emojis T n, ∀ e2 ∈ top_emojis T n,
      e1 ≠ e2 → ¬(indicatorCell r e1 = 1 ∧ indicatorCell r e2 = 1)) := by
  have hsum : ∀ r : Row,
      ((top_emojis T n).map (indicatorCell r)).sum
        = if r.emoji ∈ top_emojis T n then 1 else 0 := by
    intro r
    exact sum_map_indicator r.emoji (top_emojis T n) (nodup_top_emojis T n)
  refine ⟨?_, fun r _ => hsum r, ?_⟩
  · intro row hrow
    rcases List.mem_map.mp hrow with ⟨r, _, hreq⟩
    rw [← hreq, hsum r]
    by_cases hm : r.emoji ∈ top_emojis T n
    · simp [hm]
    · simp [hm]
  · intro r _ e1 _ e2 _ hne ⟨h1, h2⟩
    exact hne ((indicatorCell_eq_one h1).symm.trans (indicatorCell_eq_one h2))

/-- Witness for C10 at the concrete three-row emoji table with top-10. -/
theorem C10_one_hot_witness :
    (∀ row ∈ mat_df emojiTable 10, row.sum ≤ 1) ∧
    (∀ r ∈ emojiTable.rows,
      ((top_emojis emojiTable 10).map (indicatorCell r)).sum
        = if r.emoji ∈ top_emojis emojiTable 10 then 1 else 0) ∧
    (∀ r ∈ emojiTable.rows, ∀ e1 ∈ top_emojis emojiTable 10,
      ∀ e2 ∈ top_emojis emojiTable 10, e1 ≠ e2 →
      ¬(indicatorCell r e1 = 1 ∧ indicatorCell r e2 = 1)) :=
  C10_one_hot emojiTable 10 rfl
